import Mathlib

/-!
A verification development for the 21st component registry's
source-analysis and dependency-resolution core.

The development shallowly embeds, in Lean:
  * the source-analysis and dependency-classification functions used by
    `apps/web/components/ComponentForm/ComponentForm.tsx` (the parser
    utilities live in `utils/parsers`, which is not among the repository
    files here; those definitions are modelled from the spec, each marked
    so in its doc comment);
  * the publish gate and preview gate of `ComponentForm.tsx`;
  * the registry dependency resolver (`resolveRegistryDependencyTree`,
    from `utils/queries.server`, likewise modelled from the spec) and the
    manifest-serving route
    `apps/web/app/api/r/[username]/[component_slug]/route.ts`;
  * the demo-code "use client" import injection of the component page
    layout.
-/

/-- Statements of the analysed grammar subset. Modelled from the spec:
the repository's `utils/parsers` module (imported by `ComponentForm.tsx`)
is not among the source files, and the spec (§9) directs that source
text pattern-matching be treated as a small parser over a defined
grammar subset: import statements, export statements (default, possibly
`async`, and brace-named), and opaque other text. -/
inductive Stmt where
  | importStmt (names : List String) (path : String)
  | exportDefaultFn (isAsync : Bool) (name : String)
  | exportNamed (names : List String)
  | other (text : String)
deriving DecidableEq

/-- A source file is a sequence of statements. -/
abbrev Source := List Stmt

/-- Concatenate the names a per-statement extractor yields, in
declaration order. -/
def collectNames (f : Stmt → List String) : Source → List String
  | [] => []
  | st :: rest => f st ++ collectNames f rest

/-- Deduplicate keeping the first occurrence, with an accumulator of
names already seen. -/
def dedupFirstAux : List String → List String → List String
  | [], _ => []
  | a :: rest, seen =>
    if a ∈ seen then dedupFirstAux rest seen
    else a :: dedupFirstAux rest (a :: seen)

/-- Deduplicate a name list keeping the first occurrence of each name. -/
def dedupFirst (l : List String) : List String := dedupFirstAux l []

/-- Deduplicate a key-value list on keys, keeping the first entry for
each key, with an accumulator of keys already seen. -/
def dedupKeysAux : List (String × String) → List String → List (String × String)
  | [], _ => []
  | (k, v) :: rest, seen =>
    if k ∈ seen then dedupKeysAux rest seen
    else (k, v) :: dedupKeysAux rest (k :: seen)

/-- Deduplicate a key-value list on keys, keeping the first entry. -/
def dedupKeys (l : List (String × String)) : List (String × String) :=
  dedupKeysAux l []

/-- First-match lookup in a key-value list (the association-list reading
of a Record keyed by strings). -/
def lookupKey {α : Type} : List (String × α) → String → Option α
  | [], _ => none
  | (k, v) :: rest, key => if k = key then some v else lookupKey rest key

theorem mem_collectNames {f : Stmt → List String} {s : Source} {x : String} :
    x ∈ collectNames f s ↔ ∃ st ∈ s, x ∈ f st := by
  induction s with
  | nil => simp [collectNames]
  | cons st rest ih => simp [collectNames, ih, List.mem_append]

theorem collectNames_append (f : Stmt → List String) (a b : Source) :
    collectNames f (a ++ b) = collectNames f a ++ collectNames f b := by
  induction a with
  | nil => simp [collectNames]
  | cons st rest ih => simp [collectNames, ih]

theorem mem_dedupFirstAux {l seen : List String} {x : String} :
    x ∈ dedupFirstAux l seen ↔ x ∈ l ∧ x ∉ seen := by
  induction l generalizing seen with
  | nil => simp [dedupFirstAux]
  | cons a rest ih =>
    by_cases ha : a ∈ seen
    · simp only [dedupFirstAux, if_pos ha, ih, List.mem_cons]
      constructor
      · rintro ⟨hx, hns⟩; exact ⟨Or.inr hx, hns⟩
      · rintro ⟨rfl | hx, hns⟩
        · exact absurd ha hns
        · exact ⟨hx, hns⟩
    · simp only [dedupFirstAux, if_neg ha, List.mem_cons, ih]
      by_cases hxa : x = a
      · subst hxa; tauto
      · tauto

theorem mem_dedupFirst {l : List String} {x : String} :
    x ∈ dedupFirst l ↔ x ∈ l := by
  simp [dedupFirst, mem_dedupFirstAux]

theorem dedupFirstAux_all_seen {m seen : List String}
    (h : ∀ x ∈ m, x ∈ seen) : dedupFirstAux m seen = [] := by
  induction m with
  | nil => rfl
  | cons a rest ih =>
    have ha : a ∈ seen := h a (List.mem_cons_self a rest)
    simp only [dedupFirstAux, if_pos ha]
    exact ih fun x hx => h x (List.mem_cons_of_mem _ hx)

theorem dedupFirstAux_append_absorb {l m seen : List String}
    (h : ∀ x ∈ m, x ∈ l ∨ x ∈ seen) :
    dedupFirstAux (l ++ m) seen = dedupFirstAux l seen := by
  induction l generalizing seen with
  | nil =>
    simp only [List.nil_append, dedupFirstAux]
    exact dedupFirstAux_all_seen fun x hx => by
      rcases h x hx with hc | hc
      · cases hc
      · exact hc
  | cons a rest ih =>
    by_cases ha : a ∈ seen
    · simp only [List.cons_append, dedupFirstAux, if_pos ha]
      exact ih fun x hx => by
        rcases h x hx with hc | hc
        · rcases List.mem_cons.mp hc with rfl | hc
          · exact Or.inr ha
          · exact Or.inl hc
        · exact Or.inr hc
    · simp only [List.cons_append, dedupFirstAux, if_neg ha]
      congr 1
      exact ih fun x hx => by
        rcases h x hx with hc | hc
        · rcases List.mem_cons.mp hc with rfl | hc
          · exact Or.inr (List.mem_cons_self _ _)
          · exact Or.inl hc
        · exact Or.inr (List.mem_cons_of_mem _ hc)

/-- Keys never seen before survive key-deduplication. -/
theorem mem_keys_dedupKeysAux {l : List (String × String)} {seen : List String}
    {k : String} (hk : k ∈ l.map Prod.fst) (hs : k ∉ seen) :
    k ∈ (dedupKeysAux l seen).map Prod.fst := by
  induction l generalizing seen with
  | nil => simp at hk
  | cons p rest ih =>
    obtain ⟨k₀, v₀⟩ := p
    rcases List.mem_cons.mp hk with h | h
    · simp only at h
      subst h
      simp [dedupKeysAux, if_neg hs]
    · by_cases hseen : k₀ ∈ seen
      · simp only [dedupKeysAux, if_pos hseen]
        exact ih h hs
      · simp only [dedupKeysAux, if_neg hseen, List.map_cons, List.mem_cons]
        by_cases hkk : k = k₀
        · exact Or.inl hkk
        · refine Or.inr (ih h ?_)
          intro hc
          rcases List.mem_cons.mp hc with hc | hc
          · exact hkk hc
          · exact hs hc

/-- Every entry of the key-deduplicated list is an entry of the input. -/
theorem mem_of_mem_dedupKeysAux {l : List (String × String)} {seen : List String}
    {p : String × String} (hp : p ∈ dedupKeysAux l seen) : p ∈ l := by
  induction l generalizing seen with
  | nil => simp [dedupKeysAux] at hp
  | cons q rest ih =>
    obtain ⟨k₀, v₀⟩ := q
    by_cases hseen : k₀ ∈ seen
    · simp only [dedupKeysAux, if_pos hseen] at hp
      exact List.mem_cons_of_mem _ (ih hp)
    · simp only [dedupKeysAux, if_neg hseen, List.mem_cons] at hp
      rcases hp with rfl | hp
      · exact List.mem_cons_self _ _
      · exact List.mem_cons_of_mem _ (ih hp)

theorem keys_dedupKeysAux_sub {l : List (String × String)} {seen : List String}
    {k : String} (hk : k ∈ (dedupKeysAux l seen).map Prod.fst) :
    k ∈ l.map Prod.fst := by
  rcases List.mem_map.mp hk with ⟨p, hp, rfl⟩
  exact List.mem_map.mpr ⟨p, mem_of_mem_dedupKeysAux hp, rfl⟩

/-- Import facts of a source: for each import statement, the literal
module path and the bound names, in order. Modelled from the spec:
§4.1 "`import_facts`: for each import statement, the literal module path
and the set of bound names" (`utils/parsers` is not among the source
files). -/
def importFacts (s : Source) : List (String × List String) :=
  s.filterMap fun st =>
    match st with
    | Stmt.importStmt names path => some (path, names)
    | _ => none

/-- A path is local when it starts with the relative-path marker
`./` or `../`. Modelled from the spec: §4.1 "A path is local if it
starts with a relative-path marker (`./` or `../`)". -/
def isLocalPath (p : String) : Bool :=
  match p.toList with
  | '.' :: '/' :: _ => true
  | '.' :: '.' :: '/' :: _ => true
  | _ => false

/-- Per-statement exported names: a brace-named export lists its names;
a default export synthesizes an entry for its name. -/
def exportedOf : Stmt → List String
  | Stmt.exportDefaultFn _ n => [n]
  | Stmt.exportNamed ns => ns
  | _ => []

/-- `extractComponentNames` (from `utils/parsers`). Modelled from the
spec: §4.1 "`exported_names`: every top-level declaration that is
re-exported, in declaration order, deduplicated. Must handle a source
file whose sole export is default-only by synthesizing a manifest entry
for it." -/
def extractComponentNames (s : Source) : List String :=
  dedupFirst (collectNames exportedOf s)

/-- `extractDependencies` (from `utils/parsers`): the external package
map of a source, keyed by the non-local import paths. Modelled from the
spec: §4.1 "For a package import, record the best-known version string
(fall back to a `latest` sentinel if no lockfile/version source is
available) — collisions on the same package name across multiple import
statements must resolve to a single entry". `versionSource` is the
caller-supplied lockfile/version table. -/
def extractDependencies (versionSource : String → Option String) (s : Source) :
    List (String × String) :=
  dedupKeys ((importFacts s).filterMap fun f =>
    if isLocalPath f.1 then none
    else some (f.1, (versionSource f.1).getD "latest"))

/-- The local import paths of the component and demo sources, in
discovery order, deduplicated. -/
def localImportPaths (code demoCode : Source) : List String :=
  dedupFirst ((importFacts code ++ importFacts demoCode).filterMap fun f =>
    if isLocalPath f.1 then some f.1 else none)

/-- `findInternalDependencies` (from `utils/parsers`): the internal
dependency map discovered from the component and demo sources. Modelled
from the spec: §4.1 "For a local import, do NOT attempt to resolve it to
a package version; instead, emit the raw path as a pending
internal-dependency key" — each discovered path is pending (empty
slug value). Its call site `findInternalDependencies(code, demoCode)`
(ComponentForm.tsx line 133) receives only the two source texts. -/
def findInternalDependencies (code demoCode : Source) : List (String × String) :=
  (localImportPaths code demoCode).map fun p => (p, "")

/-- `extractDemoComponentName` (from `utils/parsers`), the string-valued
form consumed by `ComponentForm.tsx`: the unique exported render-entry
name, or `""` (falsy in the form's gating) when there is no unique one.
Modelled from the spec: §4.1 "it must identify exactly one exported
render-entry name". -/
def extractDemoComponentName (s : Source) : String :=
  match extractComponentNames s with
  | [n] => n
  | _ => ""

/-- Analysis failure conditions surfaced to the submission flow (spec §7). -/
inductive AnalysisError where
  | MultipleOrNoDemoExport
deriving DecidableEq

/-- Demo-export analysis as the spec states it: exactly one exported
render-entry name, else the `MultipleOrNoDemoExport` condition.
Modelled from the spec: §4.1 "if zero or more than one is found,
analysis fails with a `MultipleOrNoDemoExport` condition and the caller
(submission flow) must block publishing." -/
def analyzeDemoExport (s : Source) : Except AnalysisError String :=
  match extractComponentNames s with
  | [n] => Except.ok n
  | _ => Except.error AnalysisError.MultipleOrNoDemoExport

/-- The names a default export contributes. -/
def defaultExportNames (s : Source) : List String :=
  collectNames (fun st =>
    match st with
    | Stmt.exportDefaultFn _ n => [n]
    | _ => []) s

/-- The names already exported in braces. -/
def namedExportNames (s : Source) : List String :=
  collectNames (fun st =>
    match st with
    | Stmt.exportNamed ns => ns
    | _ => []) s

/-- The default-export names not yet covered by a brace-named export:
what rewrite (1) still has to wrap. -/
def missingBraceNames (s : Source) : List String :=
  (defaultExportNames s).filter fun n => decide (n ∉ namedExportNames s)

/-- `wrapExportInBraces` (from `utils/parsers`). Modelled from the spec:
§4.1 rewrite (1) "if the default export is not already wrapped for named
multi-export usage, wrap it minimally so the compiled output always
exposes importable named bindings matching `exported_names`" — appends a
brace-named export for the default-export names not yet named. -/
def wrapExportInBraces (s : Source) : Source :=
  if (missingBraceNames s).isEmpty then s
  else s ++ [Stmt.exportNamed (missingBraceNames s)]

/-- `removeAsyncFromExport` (from `utils/parsers`). Modelled from the
spec: §4.1 rewrite (2) "strip an `async` modifier from an exported demo
entry point, since the distribution pipeline requires synchronous entry
points." -/
def removeAsyncFromExport (s : Source) : Source :=
  s.map fun st =>
    match st with
    | Stmt.exportDefaultFn _ n => Stmt.exportDefaultFn false n
    | st => st

/-- Whether a demo import statement only re-imports names the component
already exports (a self-import the rewrite strips). -/
def selfImport (exported : List String) : Stmt → Bool
  | Stmt.importStmt names _ =>
    decide (names ≠ [] ∧ ∀ n ∈ names, n ∈ exported)
  | _ => false

/-- `removeComponentImports` (from `utils/parsers`): the rewritten demo
source together with the removed import paths. Modelled from the spec:
§4.1 rewrite (3) "remove any import statement inside the demo source
that imports names already present in `exported_names` of the component
being demonstrated — collect the removed import paths as
`removedImports`." -/
def removeComponentImports (demo : Source) (exported : List String) :
    Source × List String :=
  (demo.filter fun st => ! selfImport exported st,
   demo.filterMap fun st =>
     match st with
     | Stmt.importStmt names path =>
       if names ≠ [] ∧ ∀ n ∈ names, n ∈ exported then some path else none
     | _ => none)

/-- The `componentDependencies` state of `ComponentForm.tsx`
(lines 78-90): the five analysis-derived fields the form keeps. -/
structure ComponentDependenciesState where
  dependencies : List (String × String)
  demoDependencies : List (String × String)
  internalDependencies : List (String × String)
  componentNames : List String
  demoComponentName : String
deriving DecidableEq

/-- `updateDependencies` of `ComponentForm.tsx` (lines 126-148): on a
code or demo change, every field of the state is recomputed from the
sources alone and the whole state object is replaced
(`setComponentDependencies({...})`); the previous state — including
slug values the user typed into `InputInternalDependenciesCard` — is
not consulted. -/
def updateDependencies (versionSource : String → Option String)
    (code demoCode : Source) (_prev : ComponentDependenciesState) :
    ComponentDependenciesState :=
  { dependencies := extractDependencies versionSource code
    demoDependencies := extractDependencies versionSource demoCode
    internalDependencies := findInternalDependencies code demoCode
    componentNames := extractComponentNames code
    demoComponentName := extractDemoComponentName demoCode }

/-- Outcome of the submit handler, as far as the dependency gate is
concerned: blocked before any upload/insert, or a component record
inserted with the given internal-dependency map. -/
inductive SubmitOutcome where
  | notAuthenticated
  | unresolvedInternalDependency
  | published (internalDependencies : List (String × String))
deriving DecidableEq

/-- The `onSubmit` gate of `ComponentForm.tsx` (lines 168-179): an
unauthenticated user is rejected first; then
`Object.values(internalDependencies ?? {}).some((slug) => !slug)`
blocks the submission (no upload, no insert) when any internal
dependency still has an empty (falsy) slug; otherwise the component
record is created. -/
def onSubmit (user : Option String)
    (internalDependencies : List (String × String)) : SubmitOutcome :=
  match user with
  | none => SubmitOutcome.notAuthenticated
  | some _ =>
    if internalDependencies.any (fun p => p.2 = "") then
      SubmitOutcome.unresolvedInternalDependency
    else
      SubmitOutcome.published internalDependencies

/-- The preview gate of `ComponentForm.tsx` (lines 298-314): preview
props are prepared only when there is code and demo code, the
internal-dependency map is empty, and `importsToRemove?.length === 0`
(the self-import rewrite reported nothing left to remove). -/
def previewEnabled (code demoCode : Source)
    (internalDependencies : List (String × String))
    (importsToRemove : Option (List String)) : Bool :=
  !code.isEmpty && !demoCode.isEmpty && internalDependencies.isEmpty &&
    (match importsToRemove with
     | some l => l.isEmpty
     | none => false)

/-- A backing-store registry entry: stored source text, registry
namespace/tag, and the persisted internal-dependency map
(local-import-path keys, resolved `owner/slug` identifier values).
Spec §3 RegistryEntry, restricted to the fields resolution reads. -/
structure RegistryEntry where
  code : String
  registry : String
  internal_dependencies : List (String × String)
deriving DecidableEq

/-- The identifiers an entry's internal-dependency map points at: its
slug values. -/
def deps (e : RegistryEntry) : List String :=
  e.internal_dependencies.map Prod.snd

/-- Backing-store fetch: `fetchEntry` keyed by the canonical
`owner/slug` identifier (spec §6); `none` is NotFound. -/
def lookupStore (store : List (String × RegistryEntry)) (id : String) :
    Option RegistryEntry :=
  lookupKey store id

/-- One traversal layer of the resolver: process the worklist against
the visited set, delegating to `recur` after each fetch enqueues the
fetched entry's internal dependencies. Modelled from the spec: §4.3
"traversal over a visited-set keyed by canonical `owner/slug`. For each
unvisited identifier: fetch the RegistryEntry ... record it in the
result keyed by its own identifier; enqueue every slug value present in
its `internal_dependencies` map"; a missing identifier aborts with that
identifier as the `DependencyNotFound` error. -/
def resolveStep (store : List (String × RegistryEntry))
    (recur : List String → List String →
      Except String (List (String × RegistryEntry))) :
    List String → List String → Except String (List (String × RegistryEntry))
  | [], _ => Except.ok []
  | id :: rest, visited =>
    if id ∈ visited then
      resolveStep store recur rest visited
    else
      match lookupStore store id with
      | none => Except.error id
      | some e =>
        match recur (rest ++ deps e) (id :: visited) with
        | Except.error msg => Except.error msg
        | Except.ok tail => Except.ok ((id, e) :: tail)

/-- The resolver's traversal, staged by the number of fetches still
permitted. The stage index is a Lean totality device, not a behavioural
depth limit: `resolveGo_inv` shows the zero stage is unreachable
whenever the stage index bounds the unvisited part of the finite store,
which is exactly the spec's §4.3 termination argument ("the visited-set
strictly grows and the backing store is finite"). -/
def resolveGo (store : List (String × RegistryEntry)) :
    Nat → List String → List String →
      Except String (List (String × RegistryEntry))
  | 0 => resolveStep store fun _ _ => Except.error ""
  | n + 1 => resolveStep store (resolveGo store n)

/-- `resolveRegistryDependencyTree` (from `utils/queries.server`, not
among the source files). Modelled from the spec: §4.3 — seeds in, the
deduplicated transitive closure of reachable entries out, or a
`DependencyNotFound` identifier. -/
def resolveRegistryDependencyTree (store : List (String × RegistryEntry))
    (seeds : List String) : Except String (List (String × RegistryEntry)) :=
  resolveGo store (store.map Prod.fst).length seeds []

/-- Reachability by following `internal_dependencies` from the seeds
through the backing store (spec §3 "transitive closure"). -/
inductive Reaches (store : List (String × RegistryEntry)) :
    List String → String → Prop
  | seed {seeds : List String} {id : String} (h : id ∈ seeds) :
      Reaches store seeds id
  | step {seeds : List String} {a : String} {e : RegistryEntry} {b : String}
      (ha : Reaches store seeds a) (he : lookupStore store a = some e)
      (hb : b ∈ deps e) : Reaches store seeds b

/-- The store identifiers not yet visited: the quantity the spec's
termination argument says strictly shrinks. -/
def remaining (store : List (String × RegistryEntry))
    (visited : List String) : Nat :=
  ((store.map Prod.fst).toFinset \ visited.toFinset).card

/-- What a resolver result must satisfy, relative to the worklist and
visited set it was produced from: a successful result holds
store-faithful entries, never revisits, never duplicates, covers the
worklist, is closed under enqueued dependencies, and only holds
reachable identifiers; a failure names a reachable identifier missing
from the store. -/
def ResolveInv (store : List (String × RegistryEntry))
    (wl visited : List String) :
    Except String (List (String × RegistryEntry)) → Prop
  | Except.ok r =>
    (∀ p ∈ r, lookupStore store p.1 = some p.2) ∧
    (∀ id ∈ r.map Prod.fst, id ∉ visited) ∧
    (r.map Prod.fst).Nodup ∧
    (∀ x ∈ wl, x ∈ visited ∨ x ∈ r.map Prod.fst) ∧
    (∀ p ∈ r, ∀ b ∈ deps p.2, b ∈ visited ∨ b ∈ r.map Prod.fst) ∧
    (∀ id ∈ r.map Prod.fst, Reaches store wl id)
  | Except.error msg =>
    lookupStore store msg = none ∧ Reaches store wl msg

theorem lookupKey_mem {α : Type} {l : List (String × α)} {k : String} {v : α}
    (h : lookupKey l k = some v) : (k, v) ∈ l ∧ k ∈ l.map Prod.fst := by
  induction l with
  | nil => simp [lookupKey] at h
  | cons p rest ih =>
    obtain ⟨k₀, v₀⟩ := p
    by_cases hk : k₀ = k
    · subst hk
      simp [lookupKey] at h
      subst h
      exact ⟨List.mem_cons_self _ _, by simp⟩
    · simp only [lookupKey, if_neg hk] at h
      rcases ih h with ⟨h₁, h₂⟩
      exact ⟨List.mem_cons_of_mem _ h₁, List.mem_cons_of_mem _ h₂⟩

/-- Reachability transfers along a seed mapping. -/
theorem reaches_transfer {store : List (String × RegistryEntry)}
    {s₁ s₂ : List String} {x : String}
    (h : ∀ y ∈ s₂, Reaches store s₁ y) (hx : Reaches store s₂ x) :
    Reaches store s₁ x := by
  induction hx with
  | seed hm => exact h _ hm
  | step _ he hb ih => exact Reaches.step ih he hb

/-- Everything enqueued after fetching `id` is reachable from `id :: rest`. -/
theorem reaches_after_fetch {store : List (String × RegistryEntry)}
    {id : String} {e : RegistryEntry} {rest : List String}
    (he : lookupStore store id = some e) :
    ∀ y ∈ rest ++ deps e, Reaches store (id :: rest) y := by
  intro y hy
  rcases List.mem_append.mp hy with hy | hy
  · exact Reaches.seed (List.mem_cons_of_mem _ hy)
  · exact Reaches.step (Reaches.seed (List.mem_cons_self _ _)) he hy

/-- A result for worklist `rest` is also a result for `id :: rest` when
`id` is already visited. -/
theorem resolveInv_cons_visited {store : List (String × RegistryEntry)}
    {rest visited : List String} {id : String}
    {res : Except String (List (String × RegistryEntry))}
    (hid : id ∈ visited) (h : ResolveInv store rest visited res) :
    ResolveInv store (id :: rest) visited res := by
  have htrans : ∀ y ∈ rest, Reaches store (id :: rest) y := fun y hy =>
    Reaches.seed (List.mem_cons_of_mem _ hy)
  cases res with
  | error msg =>
    exact ⟨h.1, reaches_transfer htrans h.2⟩
  | ok r =>
    obtain ⟨h1, h2, h3, h4, h5, h6⟩ := h
    refine ⟨h1, h2, h3, ?_, h5, ?_⟩
    · intro x hx
      rcases List.mem_cons.mp hx with rfl | hx
      · exact Or.inl hid
      · exact h4 x hx
    · intro i hi
      exact reaches_transfer htrans (h6 i hi)

/-- Fetching an unvisited store identifier strictly shrinks the
unvisited part of the store. -/
theorem remaining_cons_lt {store : List (String × RegistryEntry)}
    {visited : List String} {id : String}
    (hmem : id ∈ store.map Prod.fst) (hnv : id ∉ visited) :
    remaining store (id :: visited) < remaining store visited := by
  unfold remaining
  have hins : (id :: visited).toFinset = insert id visited.toFinset :=
    List.toFinset_cons
  rw [hins]
  have hset : (store.map Prod.fst).toFinset \ insert id visited.toFinset =
      ((store.map Prod.fst).toFinset \ visited.toFinset).erase id := by
    ext a
    simp only [Finset.mem_sdiff, Finset.mem_insert, Finset.mem_erase]
    tauto
  rw [hset]
  exact Finset.card_erase_lt_of_mem
    (Finset.mem_sdiff.mpr ⟨List.mem_toFinset.mpr hmem,
      fun hc => hnv (List.mem_toFinset.mp hc)⟩)

/-- At stage zero with nothing left unvisited, the traversal never
needs a fetch, so the stage bound is irrelevant. -/
theorem resolveGo_zero_inv (store : List (String × RegistryEntry))
    (visited : List String) (h : remaining store visited = 0) :
    ∀ wl, ResolveInv store wl visited (resolveGo store 0 wl visited) := by
  intro wl
  induction wl with
  | nil =>
    show ResolveInv store [] visited (Except.ok [])
    exact ⟨by simp, by simp, by simp, by simp, by simp, by simp⟩
  | cons id rest ih =>
    by_cases hid : id ∈ visited
    · have heq : resolveGo store 0 (id :: rest) visited =
          resolveGo store 0 rest visited := by
        simp [resolveGo, resolveStep, hid]
      rw [heq]
      exact resolveInv_cons_visited hid ih
    · cases hfetch : lookupStore store id with
      | none =>
        have heq : resolveGo store 0 (id :: rest) visited =
            Except.error id := by
          simp [resolveGo, resolveStep, hid, hfetch]
        rw [heq]
        exact ⟨hfetch, Reaches.seed (List.mem_cons_self _ _)⟩
      | some e =>
        have hlt := remaining_cons_lt (lookupKey_mem hfetch).2 hid
        omega

/-- One traversal layer preserves the invariant, assuming the deeper
stages do below a tighter bound. -/
theorem resolveStep_inv (store : List (String × RegistryEntry))
    (recur : List String → List String →
      Except String (List (String × RegistryEntry))) (n : Nat)
    (hrec : ∀ wl' visited', remaining store visited' ≤ n →
      ResolveInv store wl' visited' (recur wl' visited')) :
    ∀ visited, remaining store visited ≤ n + 1 →
      ∀ wl, ResolveInv store wl visited (resolveStep store recur wl visited) := by
  intro visited hbound wl
  induction wl with
  | nil =>
    show ResolveInv store [] visited (Except.ok [])
    exact ⟨by simp, by simp, by simp, by simp, by simp, by simp⟩
  | cons id rest ih =>
    by_cases hid : id ∈ visited
    · have heq : resolveStep store recur (id :: rest) visited =
          resolveStep store recur rest visited := by
        simp [resolveStep, hid]
      rw [heq]
      exact resolveInv_cons_visited hid ih
    · cases hfetch : lookupStore store id with
      | none =>
        have heq : resolveStep store recur (id :: rest) visited =
            Except.error id := by
          simp [resolveStep, hid, hfetch]
        rw [heq]
        exact ⟨hfetch, Reaches.seed (List.mem_cons_self _ _)⟩
      | some e =>
        have hlt := remaining_cons_lt (lookupKey_mem hfetch).2 hid
        have hb' : remaining store (id :: visited) ≤ n := by omega
        have hresInv := hrec (rest ++ deps e) (id :: visited) hb'
        cases hres : recur (rest ++ deps e) (id :: visited) with
        | error msg =>
          have heq : resolveStep store recur (id :: rest) visited =
              Except.error msg := by
            simp [resolveStep, hid, hfetch, hres]
          rw [heq]
          rw [hres] at hresInv
          exact ⟨hresInv.1,
            reaches_transfer (reaches_after_fetch hfetch) hresInv.2⟩
        | ok tail =>
          have heq : resolveStep store recur (id :: rest) visited =
              Except.ok ((id, e) :: tail) := by
            simp [resolveStep, hid, hfetch, hres]
          rw [heq]
          rw [hres] at hresInv
          obtain ⟨h1, h2, h3, h4, h5, h6⟩ := hresInv
          refine ⟨?_, ?_, ?_, ?_, ?_, ?_⟩
          · intro p hp
            rcases List.mem_cons.mp hp with rfl | hp
            · exact hfetch
            · exact h1 p hp
          · intro i hi
            rcases (by simpa using hi :
                i = id ∨ i ∈ tail.map Prod.fst) with rfl | hi
            · exact hid
            · intro hc
              exact (h2 i hi) (List.mem_cons_of_mem _ hc)
          · simp only [List.map_cons]
            refine List.nodup_cons.mpr ⟨?_, h3⟩
            intro hc
            exact (h2 id hc) (List.mem_cons_self _ _)
          · intro x hx
            rcases List.mem_cons.mp hx with rfl | hx
            · right; simp
            · rcases h4 x (List.mem_append_left _ hx) with hv | hk
              · rcases List.mem_cons.mp hv with rfl | hv
                · right; simp
                · exact Or.inl hv
              · right; simp only [List.map_cons, List.mem_cons]
                exact Or.inr hk
          · intro p hp b hb
            rcases List.mem_cons.mp hp with rfl | hp
            · rcases h4 b (List.mem_append_right _ hb) with hv | hk
              · rcases List.mem_cons.mp hv with rfl | hv
                · right; simp
                · exact Or.inl hv
              · right; simp only [List.map_cons, List.mem_cons]
                exact Or.inr hk
            · rcases h5 p hp b hb with hv | hk
              · rcases List.mem_cons.mp hv with rfl | hv
                · right; simp
                · exact Or.inl hv
              · right; simp only [List.map_cons, List.mem_cons]
                exact Or.inr hk
          · intro i hi
            rcases (by simpa using hi :
                i = id ∨ i ∈ tail.map Prod.fst) with rfl | hi
            · exact Reaches.seed (List.mem_cons_self _ _)
            · exact reaches_transfer (reaches_after_fetch hfetch) (h6 i hi)

/-- The traversal invariant holds at every stage that bounds the
unvisited part of the store. -/
theorem resolveGo_inv (store : List (String × RegistryEntry)) :
    ∀ n visited, remaining store visited ≤ n →
      ∀ wl, ResolveInv store wl visited (resolveGo store n wl visited) := by
  intro n
  induction n with
  | zero =>
    intro visited h wl
    exact resolveGo_zero_inv store visited (Nat.le_zero.mp h) wl
  | succ n ihn =>
    intro visited h wl
    exact resolveStep_inv store (resolveGo store n) n
      (fun wl' vis' h' => ihn vis' h' wl') visited h wl

/-- The resolver satisfies the traversal invariant from the empty
visited set. -/
theorem resolve_inv (store : List (String × RegistryEntry))
    (seeds : List String) :
    ResolveInv store seeds [] (resolveRegistryDependencyTree store seeds) := by
  have h : remaining store [] ≤ (store.map Prod.fst).length := by
    unfold remaining
    simp only [List.toFinset_nil, Finset.sdiff_empty]
    exact List.toFinset_card_le _
  exact resolveGo_inv store (store.map Prod.fst).length [] h seeds

/-- A successful resolution contains every identifier reachable from
the seeds. -/
theorem resolve_complete {store : List (String × RegistryEntry)}
    {seeds : List String} {r : List (String × RegistryEntry)}
    (h : ResolveInv store seeds [] (Except.ok r)) :
    ∀ id, Reaches store seeds id → id ∈ r.map Prod.fst := by
  obtain ⟨h1, _, _, h4, h5, _⟩ := h
  intro id hid
  induction hid with
  | seed hm =>
    rcases h4 _ hm with hc | hc
    · exact absurd hc (List.not_mem_nil _)
    · exact hc
  | @step a e b ha he hb ih =>
    rcases List.mem_map.mp ih with ⟨p, hp, hfst⟩
    have hlk := h1 p hp
    rw [hfst] at hlk
    have hpe : e = p.2 := Option.some_inj.mp (he.symm.trans hlk)
    rcases h5 p hp _ (hpe ▸ hb) with hc | hc
    · exact absurd hc (List.not_mem_nil _)
    · exact hc

deriving instance DecidableEq for Except

/-- The `components` row joined with its user, restricted to the fields
the route reads (route.ts lines 14-42). -/
structure Component where
  username : String
  component_slug : String
  registry : String
  dependencies : List (String × String)
  direct_registry_dependencies : List String
deriving DecidableEq

/-- One entry of the served manifest's `files` array (route.ts
lines 50-57). -/
structure FileEntry where
  path : String
  content : String
  type : String
  target : String
deriving DecidableEq

/-- The served manifest, `ComponentRegistryResponse` (route.ts
lines 59-67): `dependencies := none` models the omitted (`undefined`)
field. -/
structure Manifest where
  name : String
  type : String
  dependencies : Option (List String)
  files : List FileEntry
deriving DecidableEq

/-- The three responses the route can produce (route.ts lines 25-75). -/
inductive RouteResponse where
  | notFound404
  | serverError500 (message : String)
  | ok200 (manifest : Manifest)
deriving DecidableEq

/-- The root-component lookup of the route (route.ts lines 14-22):
select the single row matching the slug and username. -/
def findComponent (components : List Component) (username slug : String) :
    Option Component :=
  components.find? fun c => c.username == username && c.component_slug == slug

/-- The seed identifiers the route resolves (route.ts lines 36-42):
the root's own `owner/slug` identifier followed by its
`direct_registry_dependencies`. -/
def seedsFor (username slug : String) (comp : Component) : List String :=
  (username ++ "/" ++ slug) :: comp.direct_registry_dependencies

/-- The GET handler of
`apps/web/app/api/r/[username]/[component_slug]/route.ts`: 404 when the
root component row is not found; a thrown resolver error is caught and
returned as a 500; otherwise the manifest is built with one file per
resolved identifier (path = identifier, content = stored code,
type = `registry:` + namespace, target = `""`) and a top-level
`dependencies` list holding the root's external package names, present
only when that map is non-empty. -/
def GET (components : List Component) (store : List (String × RegistryEntry))
    (username slug : String) : RouteResponse :=
  match findComponent components username slug with
  | none => RouteResponse.notFound404
  | some comp =>
    match resolveRegistryDependencyTree store (seedsFor username slug comp) with
    | Except.error msg => RouteResponse.serverError500 msg
    | Except.ok resolved =>
      RouteResponse.ok200
        { name := slug
          type := "registry:" ++ comp.registry
          dependencies :=
            if comp.dependencies.length > 0 then
              some (comp.dependencies.map Prod.fst)
            else none
          files := resolved.map fun p =>
            { path := p.1
              content := p.2.code
              type := "registry:" ++ p.2.registry
              target := "" } }

/-- Character-level prefix test (the anchored part of the route page's
`/^"use client";?\s*/` regular expression test). -/
def startsWithChars : List Char → List Char → Bool
  | [], _ => true
  | _ :: _, [] => false
  | p :: ps, c :: cs => p = c && startsWithChars ps cs

/-- The `"use client"` directive (with its quotes), as characters. -/
def useClientMarker : List Char := ("\"use client\"").toList

/-- Whitespace as matched by the page's regular expression `\s`. -/
def isSpaceChar (c : Char) : Bool :=
  c = ' ' || c = '\n' || c = '\t' || c = '\r'

/-- `rawDemoCode.replace(/^"use client";?\s*/, "")` of the component
page layout: remove a leading `"use client"` directive, its optional
semicolon and the following whitespace; other text is unchanged. -/
def dropUseClient (raw : List Char) : List Char :=
  if startsWithChars useClientMarker raw then
    let r1 := raw.drop useClientMarker.length
    let r2 := match r1 with
      | ';' :: rest => rest
      | _ => r1
    r2.dropWhile isSpaceChar
  else raw

/-- The injected component-import line of the component page layout:
`import { <names> } from "./<slug>";\n`. -/
def importLineFor (componentNames : List String) (slug : String) :
    List Char :=
  ("import \x7b " ++ String.intercalate ", " componentNames ++
    " \x7d from \"./" ++ slug ++ "\";\n").toList

/-- The demo code served by the component page layout (page lines
219-225): when the stored demo begins with `"use client"`, the
directive is re-emitted first, then the injected import line, then the
body with the leading directive stripped; otherwise the import line is
prepended. -/
def mkDemoCode (componentNames : List String) (slug : String)
    (raw : List Char) : List Char :=
  if startsWithChars useClientMarker raw then
    ("\"use client\";\n").toList ++ importLineFor componentNames slug ++
      '\n' :: dropUseClient raw
  else
    importLineFor componentNames slug ++ '\n' :: raw

theorem startsWithChars_iff {pre l : List Char} :
    startsWithChars pre l = true ↔ ∃ t, l = pre ++ t := by
  induction pre generalizing l with
  | nil =>
    simp [startsWithChars]
  | cons p ps ih =>
    cases l with
    | nil =>
      simp [startsWithChars]
    | cons c cs =>
      simp only [startsWithChars, Bool.and_eq_true, decide_eq_true_eq, ih,
        List.cons_append, List.cons.injEq]
      constructor
      · rintro ⟨rfl, t, rfl⟩
        exact ⟨t, rfl, rfl⟩
      · rintro ⟨t, rfl, rfl⟩
        exact ⟨rfl, t, rfl⟩

theorem defaultExportNames_append (a b : Source) :
    defaultExportNames (a ++ b) =
      defaultExportNames a ++ defaultExportNames b :=
  collectNames_append _ a b

theorem namedExportNames_append (a b : Source) :
    namedExportNames (a ++ b) = namedExportNames a ++ namedExportNames b :=
  collectNames_append _ a b

theorem importFacts_append (a b : Source) :
    importFacts (a ++ b) = importFacts a ++ importFacts b :=
  List.filterMap_append a b _

/-- Default-export names are exported names. -/
theorem default_sub_exported {s : Source} {x : String}
    (h : x ∈ defaultExportNames s) : x ∈ collectNames exportedOf s := by
  rcases mem_collectNames.mp h with ⟨st, hst, hx⟩
  refine mem_collectNames.mpr ⟨st, hst, ?_⟩
  cases st <;> simp_all [exportedOf]

/-- A source with nothing left to wrap is left unchanged. -/
theorem wrap_of_missing_nil {t : Source} (h : missingBraceNames t = []) :
    wrapExportInBraces t = t := by
  unfold wrapExportInBraces
  rw [h]
  simp

/-- Every name the wrap rewrite would still add to the wrapped source is
already covered there, so rewrapping has nothing left to add. -/
theorem missingBraceNames_wrap_empty (s : Source)
    (hempty : ¬(missingBraceNames s).isEmpty = true) :
    missingBraceNames (wrapExportInBraces s) = [] := by
  unfold wrapExportInBraces
  rw [if_neg hempty]
  have hd : defaultExportNames (s ++ [Stmt.exportNamed (missingBraceNames s)]) =
      defaultExportNames s := by
    rw [defaultExportNames_append]
    simp [defaultExportNames, collectNames]
  have hn : namedExportNames (s ++ [Stmt.exportNamed (missingBraceNames s)]) =
      namedExportNames s ++ missingBraceNames s := by
    rw [namedExportNames_append]
    simp [namedExportNames, collectNames]
  rw [missingBraceNames, hd, hn]
  apply List.filter_eq_nil_iff.mpr
  intro n hn'
  simp only [decide_eq_true_eq, not_not, List.mem_append]
  by_cases hns : n ∈ namedExportNames s
  · exact Or.inl hns
  · exact Or.inr (List.mem_filter.mpr ⟨hn', by simpa using hns⟩)

theorem wrapExportInBraces_idem (s : Source) :
    wrapExportInBraces (wrapExportInBraces s) = wrapExportInBraces s := by
  by_cases hempty : (missingBraceNames s).isEmpty
  · have hs : wrapExportInBraces s = s := by
      unfold wrapExportInBraces
      rw [if_pos hempty]
    rw [hs]
    exact hs
  · exact wrap_of_missing_nil (missingBraceNames_wrap_empty s hempty)

theorem removeAsyncFromExport_idem (s : Source) :
    removeAsyncFromExport (removeAsyncFromExport s) = removeAsyncFromExport s := by
  unfold removeAsyncFromExport
  rw [List.map_map]
  congr 1
  funext st
  cases st <;> rfl

theorem extractComponentNames_wrap (s : Source) :
    extractComponentNames (wrapExportInBraces s) = extractComponentNames s := by
  unfold wrapExportInBraces
  by_cases hempty : (missingBraceNames s).isEmpty
  · rw [if_pos hempty]
  · rw [if_neg hempty]
    unfold extractComponentNames
    rw [collectNames_append]
    have hone : collectNames exportedOf [Stmt.exportNamed (missingBraceNames s)] =
        missingBraceNames s := by
      simp [collectNames, exportedOf]
    rw [hone]
    unfold dedupFirst
    exact dedupFirstAux_append_absorb fun x hx =>
      Or.inl (default_sub_exported (List.mem_filter.mp hx).1)

theorem importFacts_wrap (s : Source) :
    importFacts (wrapExportInBraces s) = importFacts s := by
  unfold wrapExportInBraces
  by_cases hempty : (missingBraceNames s).isEmpty
  · rw [if_pos hempty]
  · rw [if_neg hempty, importFacts_append]
    have : importFacts [Stmt.exportNamed (missingBraceNames s)] = [] := rfl
    rw [this, List.append_nil]

theorem collectNames_exportedOf_removeAsync (s : Source) :
    collectNames exportedOf (removeAsyncFromExport s) =
      collectNames exportedOf s := by
  induction s with
  | nil => rfl
  | cons st rest ih =>
    cases st <;> simp_all [removeAsyncFromExport, collectNames, exportedOf]

theorem extractComponentNames_removeAsync (s : Source) :
    extractComponentNames (removeAsyncFromExport s) = extractComponentNames s := by
  unfold extractComponentNames
  rw [collectNames_exportedOf_removeAsync]

theorem importFacts_removeAsync (s : Source) :
    importFacts (removeAsyncFromExport s) = importFacts s := by
  induction s with
  | nil => rfl
  | cons st rest ih =>
    cases st <;> simp_all [removeAsyncFromExport, importFacts]

/-- Claim C1: for every backing-store state and every seed list, the
registry dependency resolver terminates (it is a total function, staged
only by the finite store's size, with cycles cut by the visited-set),
fetches no identifier twice (the result keys are nodup), and on success
returns a resolved set whose keys are exactly the identifiers reachable
from the seeds by following `internal_dependencies` — a characterization
independent of traversal order, since `Reaches` depends only on seed
membership; on failure it names a reachable identifier missing from the
store. -/
theorem resolveRegistryDependencyTree_closure
    (store : List (String × RegistryEntry)) (seeds : List String) :
    (∃ r, resolveRegistryDependencyTree store seeds = Except.ok r ∧
        (r.map Prod.fst).Nodup ∧
        (∀ id, id ∈ r.map Prod.fst ↔ Reaches store seeds id)) ∨
    (∃ id, resolveRegistryDependencyTree store seeds = Except.error id ∧
        lookupStore store id = none ∧ Reaches store seeds id) := by
  have hinv := resolve_inv store seeds
  cases hres : resolveRegistryDependencyTree store seeds with
  | ok r =>
    rw [hres] at hinv
    left
    exact ⟨r, rfl, hinv.2.2.1, fun id =>
      ⟨fun h => hinv.2.2.2.2.2 id h, resolve_complete hinv id⟩⟩
  | error msg =>
    rw [hres] at hinv
    right
    exact ⟨msg, rfl, hinv.1, hinv.2⟩

def entryA : RegistryEntry :=
  { code := "code-of-a", registry := "ui",
    internal_dependencies := [("./b", "alice/b")] }

def entryB : RegistryEntry :=
  { code := "code-of-b", registry := "ui",
    internal_dependencies := [("./a", "alice/a")] }

/-- A two-entry cyclic backing store: `alice/a` and `alice/b` depend on
each other. -/
def cycleStore : List (String × RegistryEntry) :=
  [("alice/a", entryA), ("alice/b", entryB)]

/-- On the cyclic store A depends on B depends on A, resolution
terminates with each entry exactly once. -/
theorem resolve_cycle_example :
    resolveRegistryDependencyTree cycleStore ["alice/a"] =
      Except.ok [("alice/a", entryA), ("alice/b", entryB)] := by decide

/-- Two seeds sharing a dependency fetch it once (spec §8's shared-icon
shape, on the cyclic store: both seeds reach both entries, each listed
once). -/
theorem resolve_shared_seed_example :
    resolveRegistryDependencyTree cycleStore ["alice/a", "alice/b"] =
      Except.ok [("alice/a", entryA), ("alice/b", entryB)] := by decide

/-- A seed whose dependency map names an identifier absent from the
store aborts with that identifier. -/
theorem resolve_missing_example :
    resolveRegistryDependencyTree cycleStore ["alice/a", "alice/missing"] =
      Except.error "alice/missing" := by decide

/-- Claim C5: analysis and the stored rewrites are idempotent — applying
`wrapExportInBraces` or `removeAsyncFromExport` to already-rewritten
source leaves it unchanged, and re-analysing rewritten source yields the
same `exported_names` and the same import facts as the first analysis. -/
theorem analysis_rewrites_idempotent (s : Source) :
    wrapExportInBraces (wrapExportInBraces s) = wrapExportInBraces s ∧
    removeAsyncFromExport (removeAsyncFromExport s) = removeAsyncFromExport s ∧
    extractComponentNames (wrapExportInBraces s) = extractComponentNames s ∧
    importFacts (wrapExportInBraces s) = importFacts s ∧
    extractComponentNames (removeAsyncFromExport s) = extractComponentNames s ∧
    importFacts (removeAsyncFromExport s) = importFacts s :=
  ⟨wrapExportInBraces_idem s, removeAsyncFromExport_idem s,
   extractComponentNames_wrap s, importFacts_wrap s,
   extractComponentNames_removeAsync s, importFacts_removeAsync s⟩

/-- Claim C7: with an authenticated user, a submission whose
internal-dependency map holds any empty slug value stops at the
unresolved-internal-dependency gate — no component record is created —
and a submission only publishes when every internal-dependency value is
non-empty. -/
theorem onSubmit_unresolved_gate (uid : String)
    (internalDependencies : List (String × String)) :
    ((∃ p ∈ internalDependencies, p.2 = "") →
        onSubmit (some uid) internalDependencies =
          SubmitOutcome.unresolvedInternalDependency ∧
        ∀ result, onSubmit (some uid) internalDependencies ≠
          SubmitOutcome.published result) ∧
    (∀ result, onSubmit (some uid) internalDependencies =
        SubmitOutcome.published result →
      ∀ p ∈ internalDependencies, p.2 ≠ "") := by
  constructor
  · rintro ⟨p, hp, hv⟩
    have hany : internalDependencies.any (fun q => decide (q.2 = "")) = true :=
      List.any_eq_true.mpr ⟨p, hp, by simp [hv]⟩
    constructor
    · simp [onSubmit, hany]
    · intro result hc
      simp [onSubmit, hany] at hc
  · intro result h p hp hv
    have hany : internalDependencies.any (fun q => decide (q.2 = "")) = true :=
      List.any_eq_true.mpr ⟨p, hp, by simp [hv]⟩
    simp [onSubmit, hany] at h

/-- The spec §8 end-to-end publish-gate shape: an unresolved `./card`
blocks the submission. -/
theorem onSubmit_card_example :
    onSubmit (some "user-1") [("./card", "")] =
      SubmitOutcome.unresolvedInternalDependency := by decide

/-- Claim C9: demo analysis accepts exactly one exported render-entry
name; when the demo's exported-name list has zero or several entries the
analysis yields the `MultipleOrNoDemoExport` condition and the form's
string-valued name is empty (falsy), which is what blocks the publish
flow, rather than silently picking one export. -/
theorem demo_export_analysis (demo : Source) :
    ((extractComponentNames demo).length ≠ 1 →
        analyzeDemoExport demo =
          Except.error AnalysisError.MultipleOrNoDemoExport ∧
        extractDemoComponentName demo = "") ∧
    (∀ n, extractComponentNames demo = [n] →
        analyzeDemoExport demo = Except.ok n ∧
        extractDemoComponentName demo = n) := by
  constructor
  · intro hlen
    cases hE : extractComponentNames demo with
    | nil =>
      exact ⟨by simp [analyzeDemoExport, hE],
        by simp [extractDemoComponentName, hE]⟩
    | cons a rest =>
      cases rest with
      | nil => exact absurd (by simp [hE]) hlen
      | cons b rest' =>
        exact ⟨by simp [analyzeDemoExport, hE],
          by simp [extractDemoComponentName, hE]⟩
  · intro n hE
    exact ⟨by simp [analyzeDemoExport, hE],
      by simp [extractDemoComponentName, hE]⟩

/-- A demo exporting two names fails analysis with
`MultipleOrNoDemoExport`; a demo exporting none does too. -/
theorem demo_export_examples :
    analyzeDemoExport [Stmt.exportNamed ["DemoA", "DemoB"]] =
      Except.error AnalysisError.MultipleOrNoDemoExport ∧
    analyzeDemoExport [Stmt.other "const x = 1"] =
      Except.error AnalysisError.MultipleOrNoDemoExport ∧
    analyzeDemoExport [Stmt.exportDefaultFn false "Demo"] =
      Except.ok "Demo" := by decide

/-- An empty lockfile/version table: no version source is known. -/
def noVersions : String → Option String := fun _ => none

/-- A stored state in which the user has already resolved `./card` to
the slug `card-slug`. -/
def prevResolvedState : ComponentDependenciesState :=
  { dependencies := []
    demoDependencies := []
    internalDependencies := [("./card", "card-slug")]
    componentNames := ["Button"]
    demoComponentName := "Demo" }

/-- A component source that still imports `./card`. -/
def cardImportingSource : Source :=
  [Stmt.importStmt ["Card"] "./card", Stmt.exportDefaultFn false "Button"]

/-- Claim C2 counterexample: `./card` is present in the stored map with
the resolved slug `card-slug` and is still imported by the analysed
source, yet re-running the classifier maps it back to the empty pending
value — the existing resolved slug value is not kept. -/
theorem updateDependencies_drops_resolved_slug :
    ("./card", "card-slug") ∈ prevResolvedState.internalDependencies ∧
    "./card" ∈ localImportPaths cardImportingSource [] ∧
    lookupKey (updateDependencies noVersions cardImportingSource []
        prevResolvedState).internalDependencies "./card" ≠ some "card-slug" ∧
    lookupKey (updateDependencies noVersions cardImportingSource []
        prevResolvedState).internalDependencies "./card" = some "" := by
  refine ⟨by decide, by decide, by decide, by decide⟩

/-- Claim C2 (amended): re-running the classifier rebuilds
`internal_dependencies` from the analysed sources alone: its keys are
exactly the local import paths still present, every value is the empty
pending slug (so newly discovered paths are added unresolved, paths no
longer imported are removed, and previously resolved slug values are
discarded rather than kept), the previous state never influences the
result, and the recomputation is idempotent. -/
theorem updateDependencies_rebuild
    (versionSource : String → Option String) (code demoCode : Source)
    (prev prev' : ComponentDependenciesState) :
    updateDependencies versionSource code demoCode prev =
      updateDependencies versionSource code demoCode prev' ∧
    (∀ p v, (p, v) ∈ (updateDependencies versionSource code demoCode
        prev).internalDependencies → v = "") ∧
    (∀ p, p ∈ ((updateDependencies versionSource code demoCode
          prev).internalDependencies.map Prod.fst) ↔
        p ∈ localImportPaths code demoCode) ∧
    updateDependencies versionSource code demoCode
        (updateDependencies versionSource code demoCode prev) =
      updateDependencies versionSource code demoCode prev := by
  refine ⟨rfl, ?_, ?_, rfl⟩
  · intro p v hp
    simp only [updateDependencies, findInternalDependencies,
      List.mem_map] at hp
    rcases hp with ⟨q, _, hq⟩
    exact (Prod.mk.injEq _ _ _ _ ▸ hq).2.symm
  · intro p
    simp [updateDependencies, findInternalDependencies, List.map_map,
      Function.comp]

/-- The component of the spec §8 self-import example:
`export default function Button(){...}`. -/
def buttonComponentSrc : Source := [Stmt.exportDefaultFn false "Button"]

/-- The demo of the spec §8 self-import example:
`import {Button} from "./button"; export default function Demo(){...}`. -/
def buttonDemoSrc : Source :=
  [Stmt.importStmt ["Button"] "./button", Stmt.exportDefaultFn false "Demo"]

/-- Claim C6: the self-import rewrite keeps exactly the demo statements
that are not self-imports, reports as `removedImports` exactly the paths
of import statements whose imported names are all already exported by
the component, and the preview gate only opens when that report is
empty; on the end-to-end example the demo's `./button` import is
stripped, `removedImports = ["./button"]`, the component's exported
names are `["Button"]` and the rewritten demo's export name is `Demo`. -/
theorem removeComponentImports_spec (demo : Source) (exported : List String) :
    (∀ st, st ∈ (removeComponentImports demo exported).1 ↔
        st ∈ demo ∧ selfImport exported st = false) ∧
    (∀ p, p ∈ (removeComponentImports demo exported).2 ↔
        ∃ names, Stmt.importStmt names p ∈ demo ∧ names ≠ [] ∧
          ∀ n ∈ names, n ∈ exported) ∧
    (∀ code internal,
        previewEnabled code demo internal
            (some (removeComponentImports demo exported).2) = true →
          (removeComponentImports demo exported).2 = []) ∧
    removeComponentImports buttonDemoSrc ["Button"] =
      ([Stmt.exportDefaultFn false "Demo"], ["./button"]) ∧
    extractComponentNames buttonComponentSrc = ["Button"] ∧
    extractDemoComponentName
      (removeComponentImports buttonDemoSrc ["Button"]).1 = "Demo" := by
  refine ⟨?_, ?_, ?_, by decide, by decide, by decide⟩
  · intro st
    simp [removeComponentImports, List.mem_filter]
  · intro p
    constructor
    · intro hp
      rcases List.mem_filterMap.mp hp with ⟨st, hst, hg⟩
      cases st with
      | importStmt names path =>
        have hg' : (if names ≠ [] ∧ ∀ n ∈ names, n ∈ exported then
            some path else none) = some p := hg
        by_cases hc : names ≠ [] ∧ ∀ n ∈ names, n ∈ exported
        · rw [if_pos hc] at hg'
          cases hg'
          exact ⟨names, hst, hc.1, hc.2⟩
        · rw [if_neg hc] at hg'
          exact Option.noConfusion hg'
      | exportDefaultFn a n => exact Option.noConfusion hg
      | exportNamed ns => exact Option.noConfusion hg
      | other t => exact Option.noConfusion hg
    · rintro ⟨names, hmem, hne, hsub⟩
      refine List.mem_filterMap.mpr ⟨Stmt.importStmt names p, hmem, ?_⟩
      show (if names ≠ [] ∧ ∀ n ∈ names, n ∈ exported then
          some p else none) = some p
      rw [if_pos ⟨hne, hsub⟩]
  · intro code internal h
    simp only [previewEnabled, Bool.and_eq_true] at h
    exact List.isEmpty_iff.mp h.2

/-- Entries of the external-dependency map come from non-local import
paths and carry the best-known version, defaulting to `latest`. -/
theorem mem_extractDependencies {versionSource : String → Option String}
    {s : Source} {p : String × String}
    (hp : p ∈ extractDependencies versionSource s) :
    p.1 ∈ (importFacts s).map Prod.fst ∧ isLocalPath p.1 = false ∧
      p.2 = (versionSource p.1).getD "latest" := by
  unfold extractDependencies at hp
  have hm := mem_of_mem_dedupKeysAux hp
  rcases List.mem_filterMap.mp hm with ⟨f, hf, hg⟩
  by_cases hl : isLocalPath f.1 = true
  · rw [if_pos hl] at hg
    exact Option.noConfusion hg
  · rw [if_neg hl] at hg
    cases hg
    exact ⟨List.mem_map.mpr ⟨f, hf, rfl⟩, by simpa using hl, rfl⟩

/-- The internal-dependency keys are exactly the local import paths. -/
theorem mem_internal_keys {s : Source} {path : String} :
    path ∈ (findInternalDependencies s []).map Prod.fst ↔
      path ∈ (importFacts s).map Prod.fst ∧ isLocalPath path = true := by
  unfold findInternalDependencies localImportPaths
  rw [List.map_map]
  have hkeys : (Prod.fst ∘ fun p => (p, "")) = (id : String → String) := rfl
  rw [hkeys, List.map_id]
  have hnil : importFacts ([] : Source) = [] := rfl
  rw [hnil, List.append_nil, mem_dedupFirst]
  constructor
  · intro hmem
    rcases List.mem_filterMap.mp hmem with ⟨f, hf, hg⟩
    by_cases hl : isLocalPath f.1 = true
    · rw [if_pos hl] at hg
      cases hg
      exact ⟨List.mem_map.mpr ⟨f, hf, rfl⟩, hl⟩
    · rw [if_neg hl] at hg
      exact Option.noConfusion hg
  · rintro ⟨hmem, hloc⟩
    rcases List.mem_map.mp hmem with ⟨f, hf, rfl⟩
    exact List.mem_filterMap.mpr ⟨f, hf, by rw [if_pos hloc]⟩

/-- Claim C8: classification of import facts is a total partition —
a path of the import facts is an internal-dependency key exactly when it
is local and an external-dependency key exactly when it is not, never
both and never neither; internal entries carry the empty pending value
and external entries carry the known version, `latest` when no version
source knows the package. -/
theorem dependency_classification_partition
    (versionSource : String → Option String) (s : Source) (path : String)
    (h : path ∈ (importFacts s).map Prod.fst) :
    (path ∈ (findInternalDependencies s []).map Prod.fst ↔
        isLocalPath path = true) ∧
    (path ∈ (extractDependencies versionSource s).map Prod.fst ↔
        isLocalPath path = false) ∧
    ¬(path ∈ (findInternalDependencies s []).map Prod.fst ∧
        path ∈ (extractDependencies versionSource s).map Prod.fst) ∧
    (path ∈ (findInternalDependencies s []).map Prod.fst ∨
        path ∈ (extractDependencies versionSource s).map Prod.fst) ∧
    (∀ v, (path, v) ∈ findInternalDependencies s [] → v = "") ∧
    (∀ v, (path, v) ∈ extractDependencies versionSource s →
        v = (versionSource path).getD "latest") := by
  have hint : path ∈ (findInternalDependencies s []).map Prod.fst ↔
      isLocalPath path = true :=
    ⟨fun hm => (mem_internal_keys.mp hm).2, fun hl =>
      mem_internal_keys.mpr ⟨h, hl⟩⟩
  have hext : path ∈ (extractDependencies versionSource s).map Prod.fst ↔
      isLocalPath path = false := by
    constructor
    · intro hm
      rcases List.mem_map.mp hm with ⟨p, hp, rfl⟩
      exact (mem_extractDependencies hp).2.1
    · intro hl
      rcases List.mem_map.mp h with ⟨f, hf, rfl⟩
      unfold extractDependencies dedupKeys
      apply mem_keys_dedupKeysAux ?_ (List.not_mem_nil _)
      refine List.mem_map.mpr ⟨(f.1, (versionSource f.1).getD "latest"), ?_, rfl⟩
      exact List.mem_filterMap.mpr ⟨f, hf, by rw [if_neg (by simp [hl])]⟩
  refine ⟨hint, hext, ?_, ?_, ?_, ?_⟩
  · rintro ⟨h1, h2⟩
    rw [hint] at h1
    rw [hext] at h2
    rw [h1] at h2
    exact Bool.noConfusion h2
  · cases hl : isLocalPath path with
    | true => exact Or.inl (hint.mpr hl)
    | false => exact Or.inr (hext.mpr hl)
  · intro v hv
    unfold findInternalDependencies at hv
    rcases List.mem_map.mp hv with ⟨q, _, hq⟩
    exact (Prod.mk.injEq _ _ _ _ ▸ hq).2.symm
  · intro v hv
    have := mem_extractDependencies hv
    exact this.2.2

/-- The spec §8 classification example: `import { motion } from
"framer-motion"` next to `import { Card } from "./card"`. -/
def framerCardSrc : Source :=
  [Stmt.importStmt ["motion"] "framer-motion",
   Stmt.importStmt ["Card"] "./card"]

/-- Claim C8 witness: on the end-to-end example, `framer-motion` is an
imported path and lands in the external map with the `latest` sentinel,
while `./card` lands in the internal map with the empty pending value. -/
theorem dependency_classification_partition_witness :
    "framer-motion" ∈ (importFacts framerCardSrc).map Prod.fst ∧
    ("framer-motion" ∈
        (extractDependencies noVersions framerCardSrc).map Prod.fst ↔
      isLocalPath "framer-motion" = false) ∧
    extractDependencies noVersions framerCardSrc =
      [("framer-motion", "latest")] ∧
    findInternalDependencies framerCardSrc [] = [("./card", "")] :=
  ⟨by decide,
   (dependency_classification_partition noVersions framerCardSrc
     "framer-motion" (by decide)).2.1,
   by decide, by decide⟩

/-- Claim C3: the manifest request is all-or-nothing. A missing root
row answers 404; when the root row exists but any identifier reachable
from the request's seeds is absent from the backing store, the request
answers 500 with a single failure message; and any 200 manifest covers
every reachable identifier in its `files` — a files array holding only
a subset of the reachable entries is never returned. -/
theorem GET_no_partial_manifest (components : List Component)
    (store : List (String × RegistryEntry)) (username slug : String) :
    (findComponent components username slug = none →
        GET components store username slug = RouteResponse.notFound404) ∧
    (∀ comp, findComponent components username slug = some comp →
        (∃ id, Reaches store (seedsFor username slug comp) id ∧
            lookupStore store id = none) →
        ∃ msg, GET components store username slug =
          RouteResponse.serverError500 msg) ∧
    (∀ m, GET components store username slug = RouteResponse.ok200 m →
        ∃ comp, findComponent components username slug = some comp ∧
          ∀ id, Reaches store (seedsFor username slug comp) id →
            ∃ f ∈ m.files, f.path = id) := by
  refine ⟨?_, ?_, ?_⟩
  · intro h
    simp [GET, h]
  · rintro comp hfind ⟨id, hreach, hmiss⟩
    cases hres : resolveRegistryDependencyTree store
        (seedsFor username slug comp) with
    | ok r =>
      have hinv := resolve_inv store (seedsFor username slug comp)
      rw [hres] at hinv
      have hid := resolve_complete hinv id hreach
      rcases List.mem_map.mp hid with ⟨p, hp, rfl⟩
      have := hinv.1 p hp
      rw [hmiss] at this
      exact Option.noConfusion this
    | error msg =>
      exact ⟨msg, by simp [GET, hfind, hres]⟩
  · intro m h
    unfold GET at h
    split at h
    · exact RouteResponse.noConfusion h
    · rename_i comp hfind
      split at h
      · exact RouteResponse.noConfusion h
      · rename_i resolved hres
        have hm := RouteResponse.ok200.inj h
        have hinv := resolve_inv store (seedsFor username slug comp)
        rw [hres] at hinv
        refine ⟨comp, hfind, ?_⟩
        intro id hreach
        have hid := resolve_complete hinv id hreach
        rcases List.mem_map.mp hid with ⟨p, hp, rfl⟩
        refine ⟨{ path := p.1
                  content := p.2.code
                  type := "registry:" ++ p.2.registry
                  target := "" }, ?_, rfl⟩
        rw [← hm]
        exact List.mem_map.mpr ⟨p, hp, rfl⟩

/-- A concrete missing-dependency request: the root row exists, its
direct registry dependency is absent from the store, and the route
answers a single 500 failure naming it. -/
def soloComponent : Component :=
  { username := "alice", component_slug := "button", registry := "ui",
    dependencies := [("framer-motion", "latest")],
    direct_registry_dependencies := ["alice/icon"] }

def soloStore : List (String × RegistryEntry) :=
  [("alice/button",
    { code := "button-code", registry := "ui", internal_dependencies := [] })]

theorem GET_missing_dependency_example :
    GET [soloComponent] soloStore "alice" "button" =
      RouteResponse.serverError500 "alice/icon" ∧
    GET [] soloStore "alice" "button" = RouteResponse.notFound404 := by
  decide

/-- Claim C4: a served manifest's top-level `dependencies` field is
exactly the external package names (no versions) of the root row's
dependency map — omitted (`none`) precisely when that map is empty, and
never drawing on any other entry's external dependencies — and each
resolved identifier contributes exactly one `files` entry whose path is
the identifier, whose content is the stored source text, whose type is
`registry:` followed by the entry's namespace, and whose target is the
empty string. -/
theorem GET_manifest_shape (components : List Component)
    (store : List (String × RegistryEntry)) (username slug : String)
    (m : Manifest)
    (h : GET components store username slug = RouteResponse.ok200 m) :
    ∃ comp, findComponent components username slug = some comp ∧
      (m.dependencies = none ↔ comp.dependencies = []) ∧
      (comp.dependencies ≠ [] →
        m.dependencies = some (comp.dependencies.map Prod.fst)) ∧
      m.name = slug ∧
      m.type = "registry:" ++ comp.registry ∧
      (m.files.map FileEntry.path).Nodup ∧
      (∀ f ∈ m.files, ∃ e, lookupStore store f.path = some e ∧
        f.content = e.code ∧ f.type = "registry:" ++ e.registry ∧
        f.target = "") := by
  unfold GET at h
  split at h
  · exact RouteResponse.noConfusion h
  · rename_i comp hfind
    split at h
    · exact RouteResponse.noConfusion h
    · rename_i resolved hres
      have hm := (RouteResponse.ok200.inj h).symm
      have hinv := resolve_inv store (seedsFor username slug comp)
      rw [hres] at hinv
      refine ⟨comp, hfind, ?_, ?_, ?_, ?_, ?_, ?_⟩
      · rw [hm]
        by_cases hdep : comp.dependencies = []
        · simp [hdep]
        · simp only []
          rw [if_pos (List.length_pos.mpr hdep)]
          simp [hdep]
      · intro hdep
        rw [hm]
        simp only []
        rw [if_pos (List.length_pos.mpr hdep)]
      · rw [hm]
      · rw [hm]
      · rw [hm]
        have hpaths : (resolved.map fun p : String × RegistryEntry =>
            ({ path := p.1, content := p.2.code,
               type := "registry:" ++ p.2.registry,
               target := "" } : FileEntry)).map FileEntry.path =
            resolved.map Prod.fst := by
          rw [List.map_map]
          rfl
        show ((resolved.map _).map FileEntry.path).Nodup
        rw [hpaths]
        exact hinv.2.2.1
      · rw [hm]
        intro f hf
        rcases List.mem_map.mp hf with ⟨p, hp, rfl⟩
        exact ⟨p.2, hinv.1 p hp, rfl, rfl, rfl⟩

/-- Claim C4 witness: a one-entry store serves a 200 manifest whose
`dependencies` are the root's package names and whose single file is
the resolved identifier's stored text. -/
theorem GET_manifest_shape_witness :
    GET [soloComponent]
      [("alice/button",
        { code := "button-code", registry := "ui",
          internal_dependencies := [] }),
       ("alice/icon",
        { code := "icon-code", registry := "ui",
          internal_dependencies := [] })] "alice" "button" =
      RouteResponse.ok200
        { name := "button"
          type := "registry:ui"
          dependencies := some ["framer-motion"]
          files :=
            [{ path := "alice/button", content := "button-code",
               type := "registry:ui", target := "" },
             { path := "alice/icon", content := "icon-code",
               type := "registry:ui", target := "" }] } ∧
    ∃ comp, findComponent [soloComponent] "alice" "button" = some comp ∧
      some ["framer-motion"] = some (comp.dependencies.map Prod.fst) := by
  refine ⟨by decide, ?_⟩
  obtain ⟨comp, hfind, _, hdep, _, _, _, _⟩ :=
    GET_manifest_shape [soloComponent]
      [("alice/button",
        { code := "button-code", registry := "ui",
          internal_dependencies := [] }),
       ("alice/icon",
        { code := "icon-code", registry := "ui",
          internal_dependencies := [] })] "alice" "button"
      { name := "button"
        type := "registry:ui"
        dependencies := some ["framer-motion"]
        files :=
          [{ path := "alice/button", content := "button-code",
             type := "registry:ui", target := "" },
           { path := "alice/icon", content := "icon-code",
             type := "registry:ui", target := "" }] }
      (by decide)
  exact ⟨comp, hfind, hdep (by
    have : comp = soloComponent := by
      have := hfind
      simp [findComponent, soloComponent] at this
      exact this.symm
    rw [this]
    decide)⟩

/-- Claim C10: the component page's injected import line preserves a
leading `"use client"` directive. When the stored demo begins with the
directive, the served demo still begins with `"use client"`, followed by
the injected import line and then the original body with the directive
(and its optional semicolon and trailing whitespace) stripped from its
old position; otherwise the import line is simply prepended. -/
theorem useClient_directive_preserved (componentNames : List String)
    (slug : String) (raw : List Char) :
    (startsWithChars useClientMarker raw = true →
        mkDemoCode componentNames slug raw =
          ("\"use client\";\n").toList ++ importLineFor componentNames slug ++
            '\n' :: dropUseClient raw ∧
        ∃ t, mkDemoCode componentNames slug raw = useClientMarker ++ t) ∧
    (startsWithChars useClientMarker raw = false →
        mkDemoCode componentNames slug raw =
          importLineFor componentNames slug ++ '\n' :: raw) := by
  constructor
  · intro h
    have hdec : ("\"use client\";\n").toList =
        useClientMarker ++ [';', '\n'] := by decide
    constructor
    · simp [mkDemoCode, h]
    · refine ⟨[';', '\n'] ++ importLineFor componentNames slug ++
        '\n' :: dropUseClient raw, ?_⟩
      simp [mkDemoCode, h, hdec, List.append_assoc]
      rfl
  · intro h
    simp [mkDemoCode, h]

/-- A concrete stored demo beginning with `"use client"`: the served
demo re-emits the directive first, then the import line, then the
stripped body. -/
theorem useClient_example :
    mkDemoCode ["Button"] "button"
        (("\"use client\";\nconst d = 1").toList) =
      (("\"use client\";\nimport \x7b Button \x7d from \"./button\";\n" ++
        "\nconst d = 1").toList) ∧
    startsWithChars useClientMarker
      (("\"use client\";\nconst d = 1").toList) = true ∧
    mkDemoCode ["Button"] "button" (("const d = 1").toList) =
      (("import \x7b Button \x7d from \"./button\";\n\nconst d = 1").toList) := by
  decide
